import Mathlib

/-!
Shallow embedding of the `finetune` slice consisting of
`finetune/target_models/ordinal_regressor.py` and
`finetune/util/huggingface_interface.py`, together with theorems settling
the specification claims about the long-sequence prediction aggregator,
the comparison transform, the featurizer adapter's eos-index derivation,
the low-memory-mode layer pass, `predict_proba`, the weight importer and
the encoder shim's `vocab_size` property.

Conventions: numeric tensors are modelled as (nested) lists of integers;
integer index arithmetic stands for the float ramp of the source (all
values involved are small non-negative integers, represented exactly by
floats); fallible code returns `Except`.
-/

/- ===================== Part 1: definitions ===================== -/

/-- Python runtime errors that the modelled code can raise. -/
inductive PyError where
  | nameError (msg : String)
  | attributeError (msg : String)
deriving DecidableEq

instance {ε α : Type} [DecidableEq ε] [DecidableEq α] : DecidableEq (Except ε α) := fun a b =>
  match a, b with
  | .ok x, .ok y =>
    if h : x = y then .isTrue (by rw [h]) else .isFalse (fun hh => by cases hh; exact h rfl)
  | .error x, .error y =>
    if h : x = y then .isTrue (by rw [h]) else .isFalse (fun hh => by cases hh; exact h rfl)
  | .ok _, .error _ => .isFalse (fun hh => by cases hh)
  | .error _, .ok _ => .isFalse (fun hh => by cases hh)

/-- One element of the stream produced by `process_long_sequence`: the
source yields 5-tuples `(input, start_of_doc, end_of_doc, label, meta)`;
`predict` destructures the first and last component to `_` and never
reads them, so only the two flags and the per-chunk predicted label are
modelled. Labels are the discrete encoded ordinal labels (integers). -/
structure Chunk where
  start_of_doc : Bool
  end_of_doc : Bool
  label : Int
deriving DecidableEq

/-- Insertion of `x` into a list sorted ascending (helper for `sortInts`). -/
def insertSorted (x : Int) : List Int → List Int
  | [] => [x]
  | y :: rest => if x ≤ y then x :: y :: rest else y :: insertSorted x rest

/-- Ascending insertion sort on integer lists. -/
def sortInts (l : List Int) : List Int := l.foldr insertSorted []

/-- Embedding of `scipy.stats.mode(arr).mode` for a 1-D integer array:
`np.unique` enumerates the distinct values in ascending order, counts are
taken per distinct value, and the arg-max over counts picks the first
(hence smallest) value attaining the maximal count. Returns 0 for an
empty list (scipy would error; `predict` never calls it on an empty
accumulator). -/
def mode (l : List Int) : Int :=
  ((sortInts l).dedup.foldl
    (fun (best : Int × Nat) v =>
      if l.count v > best.2 then (v, l.count v) else best)
    (0, 0)).1

namespace OrdinalRegressor

/-- The possible states of the local variable `doc_labels` across loop
iterations: not yet assigned (reading it raises `NameError`), a Python
list (supports `.append`), or — after an `end_of_doc` iteration rebinds
it via `np.asarray(doc_labels)` — a numpy array, on which `.append`
raises `AttributeError`. -/
inductive DocLabels where
  | undefined
  | pylist (labels : List Int)
  | ndarray (labels : List Int)

/-- Loop body of `OrdinalRegressor.predict`, folded over the chunk
stream. Per the source: on `start_of_doc` the accumulator is rebound to
the fresh list `[]`; the chunk's label is appended unconditionally
(`NameError` if `doc_labels` was never assigned, `AttributeError` if it
is the ndarray left by a previous `end_of_doc` iteration); on
`end_of_doc` the accumulator is rebound to `np.asarray(doc_labels)`, its
`mode` is decoded through `label_encoder.inverse_transform` (modelled by
the abstract elementwise `decode`) on the one-element array `[doc_mode]`
and the resulting `.tolist()` (a one-element list) is appended to the
output; the ndarray accumulator is carried into the next iteration. -/
def predictAux {α : Type} (decode : Int → α) :
    DocLabels → List Chunk → Except PyError (List (List α))
  | _, [] => .ok []
  | acc, c :: rest =>
    match (if c.start_of_doc then DocLabels.pylist [] else acc) with
    | .undefined => .error (.nameError "name doc_labels is not defined")
    | .ndarray _ => .error (.attributeError "numpy.ndarray object has no attribute append")
    | .pylist l =>
      if c.end_of_doc then
        match predictAux decode (.ndarray (l ++ [c.label])) rest with
        | .error e => .error e
        | .ok out => .ok ([decode (mode (l ++ [c.label]))] :: out)
      else
        predictAux decode (.pylist (l ++ [c.label])) rest

/-- `OrdinalRegressor.predict`: fold `predictAux` over the chunk stream
starting with an undefined accumulator (`doc_labels` is only assigned
inside the loop, on the first `start_of_doc`). -/
def predict {α : Type} (decode : Int → α) (chunks : List Chunk) :
    Except PyError (List (List α)) :=
  predictAux decode .undefined chunks

/-- `OrdinalRegressor.predict_proba`: unconditionally raises
`AttributeError` with a descriptive message; the body never returns. -/
def predict_proba {α β : Type} (X : α) : Except PyError β :=
  .error (.attributeError "`Regressor` model does not support `predict_proba`.")

/-- The interior-and-final chunks of a well-formed multi-chunk document:
no further `start_of_doc`, and `end_of_doc` exactly on the last chunk. -/
def wfBody : List Chunk → Bool
  | [] => false
  | [c] => !c.start_of_doc && c.end_of_doc
  | c :: c2 :: rest => !c.start_of_doc && !c.end_of_doc && wfBody (c2 :: rest)

/-- A well-formed document chunk sequence: nonempty, `start_of_doc`
exactly on the first chunk, `end_of_doc` exactly on the last chunk
(a single chunk carries both flags). -/
def wfDoc : List Chunk → Bool
  | [] => false
  | [c] => c.start_of_doc && c.end_of_doc
  | c :: c2 :: rest => c.start_of_doc && !c.end_of_doc && wfBody (c2 :: rest)

end OrdinalRegressor

namespace ComparisonOrdinalRegressor

/-- `tf.abs(tf.reduce_sum(pair, axis=1))` on one example whose pair axis
holds the two documents' feature vectors: elementwise sum of the two
vectors followed by elementwise absolute value. -/
def pairSumAbs (a b : List Int) : List Int :=
  List.zipWith (fun x y => |x + y|) a b

/-- The `featurizer_state` entries read by
`ComparisonOrdinalRegressor._target_model` for one example: each entry
carries a pair of per-document tensors (pair axis 1 of the source's
`[batch, 2, ...]` tensors). `features` is the pooled vector pair,
`sequence_features` the per-token vector-sequence pair, `context` the
optional auxiliary pair. -/
structure FeaturizerState where
  features : List Int × List Int
  sequence_features : List (List Int) × List (List Int)
  context : Option (List Int × List Int)

/-- The state after `_target_model` overwrites the entries with the
summed-and-absolute comparison representation. -/
structure TransformedFeaturizerState where
  features : List Int
  sequence_features : List (List Int)
  context : Option (List Int)

/-- The mutation performed by `ComparisonOrdinalRegressor._target_model`
before delegating to the ordinal head: `sequence_features`, `features`
and (when present) `context` are each replaced by
`tf.abs(tf.reduce_sum(·, 1))` over the pair axis. For
`sequence_features` the reduction acts per token position. -/
def target_model_transform (s : FeaturizerState) : TransformedFeaturizerState :=
  { features := pairSumAbs s.features.1 s.features.2
    sequence_features :=
      List.zipWith pairSumAbs s.sequence_features.1 s.sequence_features.2
    context := s.context.map (fun p => pairSumAbs p.1 p.2) }

/-- Swap the two documents of every pair in the featurizer state. -/
def swapDocs (s : FeaturizerState) : FeaturizerState :=
  { features := (s.features.2, s.features.1)
    sequence_features := (s.sequence_features.2, s.sequence_features.1)
    context := s.context.map (fun p => (p.2, p.1)) }

/-- `ComparisonOrdinalRegressor` does not override `predict_proba`; the
inherited `OrdinalRegressor.predict_proba` is called. -/
def predict_proba {α β : Type} (X : α) : Except PyError β :=
  OrdinalRegressor.predict_proba X

end ComparisonOrdinalRegressor

namespace finetune_featurizer

/-- `tf.argmax` over a vector of non-negative numbers as a left fold:
`bi`/`bv` track the index and value of the running maximum (initially
index 0, value 0, matching argmax's first-occurrence tie-break on
non-negative input), `i` is the index of the head element. -/
def amax : List Nat → Nat → Nat → Nat → Nat × Nat
  | [], bi, bv, _ => (bi, bv)
  | v :: rest, bi, bv, i =>
    if bv < v then amax rest i v (i + 1) else amax rest bi bv (i + 1)

/-- The vector `tf.cast(delimiters, tf.float32) * tf.range(seq_length)`
for one sequence, built from offset `i`: position `j` holds `j` when the
token there equals the delimiter and `0` otherwise (indicator times
position ramp, fused). -/
def maskedFrom (delim : Int) : Nat → List Int → List Nat
  | _, [] => []
  | i, t :: rest => (if t = delim then i else 0) :: maskedFrom delim (i + 1) rest

/-- The `eos_idx` derivation of `finetune_featurizer` for one sequence:
arg-max over the delimiter indicator multiplied by the position ramp. -/
def eos_idx (X : List Int) (delim : Int) : Nat :=
  (amax (maskedFrom delim 0 X) 0 0 0).1

/-- Specification helper: the largest absolute position `j ≥ max i 1`
holding the delimiter in the sequence whose head sits at absolute
position `i`, and `0` when no such position exists. -/
def lastPosFrom (delim : Int) : Nat → List Int → Nat
  | _, [] => 0
  | i, t :: rest =>
    if lastPosFrom delim (i + 1) rest = 0 then
      if t = delim ∧ i ≠ 0 then i else 0
    else lastPosFrom delim (i + 1) rest

/-- Specification helper: the index of the last occurrence of the
delimiter in the sequence, when the sequence contains one. -/
def lastOccIdx (delim : Int) : List Int → Option Nat
  | [] => none
  | t :: rest =>
    match lastOccIdx delim rest with
    | some j => some (j + 1)
    | none => if t = delim then some 0 else none

/-- One encoder layer of the wrapped model, as the low-memory loop sees
it: an opaque handle for `layer.__call__` plus the layer's trainable
weights. -/
structure EncoderLayer where
  call_fn : Nat
  trainable_weights : List Nat
deriving DecidableEq

/-- The loop body
`layer.__call__ == recompute_grad(layer.__call__, train_vars=layer.trainable_weights)`:
an expression statement that evaluates an equality comparison and
discards the result; the layer is returned unchanged. -/
def low_memory_layer_pass (recompute_grad : Nat → List Nat → Nat)
    (layer : EncoderLayer) : EncoderLayer :=
  let _cmp := decide (layer.call_fn = recompute_grad layer.call_fn layer.trainable_weights)
  layer

/-- The guarded loop `if config.low_memory_mode and train: for layer in
hf_model.encoder.layer: ...` over the wrapped model's encoder layers. -/
def configure_encoder_layers (low_memory_mode train : Bool)
    (recompute_grad : Nat → List Nat → Nat)
    (layers : List EncoderLayer) : List EncoderLayer :=
  if low_memory_mode && train then
    layers.map (low_memory_layer_pass recompute_grad)
  else layers

end finetune_featurizer

/-- The wrapped tokenizer, reduced to the attribute the claims read. -/
structure HFTokenizer where
  vocab_size : Nat

/-- The encoder shim wrapping the tokenizer instance. -/
structure HuggingFaceEncoder where
  tokenizer : HFTokenizer

/-- The `vocab_size` property of `HuggingFaceEncoder`: its body is the
bare expression `self.tokenizer.vocab_size` with no `return`, so the
attribute access is evaluated, discarded, and the property returns
`None`. -/
def HuggingFaceEncoder.vocab_size (e : HuggingFaceEncoder) : Option Nat :=
  let _evaluated := e.tokenizer.vocab_size
  none

/-- One layer group of an HDF5 weight archive: its `weight_names`
attribute and its datasets, keyed by weight name. Dataset payloads are
modelled as integers (their numeric content is irrelevant to naming). -/
structure H5Layer where
  weight_names : List String
  datasets : List (String × Int)

/-- A group carrying a `layer_names` attribute and its layer subgroups. -/
structure H5Group where
  layer_names : List String
  layers : List (String × H5Layer)

/-- An HDF5 file: whether the root carries a `layer_names` attribute, an
optional `model_weights` subgroup (the nested layout), and the root
group itself (the flat layout). -/
structure H5File where
  has_layer_names_attr : Bool
  model_weights : Option H5Group
  root : H5Group

/-- Dictionary lookup on an association list (first binding wins). -/
def lookupD {α : Type} (l : List (String × α)) (k : String) : Option α :=
  (l.find? (fun p => p.1 == k)).map (fun p => p.2)

/-- `for fro, to in weights_replacement: output_name = output_name.replace(fro, to)`:
apply the rewrite rules in list order, each as a full (every occurrence,
non-regex) substring replacement. -/
def applyRules (rules : List (String × String)) (name : String) : String :=
  rules.foldl (fun s r => s.replace r.1 r.2) name

/-- Inner loop of the importer: for each listed weight name, read the
dataset `g[name]` (a missing key raises) and bind the rewritten name to
its array. -/
def loadLayerWeights (rules : List (String × String)) (g : H5Layer) :
    List String → Except String (List (String × Int))
  | [] => .ok []
  | wn :: rest =>
    match lookupD g.datasets wn with
    | none => .error ("KeyError: " ++ wn)
    | some v =>
      match loadLayerWeights rules g rest with
      | .error e => .error e
      | .ok out => .ok ((applyRules rules wn, v) :: out)

/-- Outer loop of the importer: for each listed layer name, open the
subgroup `f[name]` (a missing key raises) and collect its weights. -/
def loadLayers (f : H5Group) (rules : List (String × String)) :
    List String → Except String (List (String × Int))
  | [] => .ok []
  | ln :: rest =>
    match lookupD f.layers ln with
    | none => .error ("KeyError: " ++ ln)
    | some g =>
      match loadLayerWeights rules g g.weight_names with
      | .error e => .error e
      | .ok ws =>
        match loadLayers f rules rest with
        | .error e => .error e
        | .ok out => .ok (ws ++ out)

/-- The layout switch
`if "layer_names" not in f.attrs and "model_weights" in f: f = f["model_weights"]`:
a root without the `layer_names` attribute but with a `model_weights`
subgroup is read through that subgroup; otherwise the root is read
directly. -/
def effectiveGroup (f : H5File) : H5Group :=
  match f.has_layer_names_attr, f.model_weights with
  | false, some g => g
  | _, _ => f.root

/-- `load_weights_from_hdf5_group_by_name`: pick the effective group and
fold the nested loops, producing the bindings of the `weight_lookup`
dictionary in iteration order (keyed by rewritten weight name). -/
def load_weights_from_hdf5_group_by_name (f : H5File)
    (rules : List (String × String)) : Except String (List (String × Int)) :=
  loadLayers (effectiveGroup f) rules (effectiveGroup f).layer_names

/-- Specification helper: the archive's source weight names, in the
iteration order of the importer's loops. -/
def sourceWeightNames (g : H5Group) : List String :=
  (g.layer_names.map (fun ln =>
    match lookupD g.layers ln with
    | none => []
    | some layer => layer.weight_names)).flatten

/-- Archive consistency over a given list of layer names: every listed
layer resolves and every listed weight name has a dataset. -/
def wfLayerNames (g : H5Group) (lns : List String) : Bool :=
  lns.all (fun ln =>
    match lookupD g.layers ln with
    | none => false
    | some layer =>
      layer.weight_names.all (fun wn => (lookupD layer.datasets wn).isSome))

/-- Archive consistency for the whole group. -/
def wfGroup (g : H5Group) : Bool :=
  wfLayerNames g g.layer_names

/- ===================== Part 2: theorems ===================== -/

/-- The mode of a one-element sample is its element. -/
lemma mode_singleton (x : Int) : mode [x] = x := by
  have hd : ([x] : List Int).dedup = [x] :=
    List.dedup_cons_of_not_mem (by simp)
  simp [mode, sortInts, insertSorted, hd]

namespace OrdinalRegressor

/-- One-step unfolding of the loop body on a cons cell. -/
lemma predictAux_cons {α : Type} (decode : Int → α) (acc : DocLabels)
    (c : Chunk) (rest : List Chunk) :
    predictAux decode acc (c :: rest) =
      match (if c.start_of_doc then DocLabels.pylist [] else acc) with
      | .undefined => .error (.nameError "name doc_labels is not defined")
      | .ndarray _ => .error (.attributeError "numpy.ndarray object has no attribute append")
      | .pylist l =>
        if c.end_of_doc then
          match predictAux decode (.ndarray (l ++ [c.label])) rest with
          | .error e => .error e
          | .ok out => .ok ([decode (mode (l ++ [c.label]))] :: out)
        else
          predictAux decode (.pylist (l ++ [c.label])) rest := rfl

/-- Processing the body of a well-formed document appends the body's
labels to the already-accumulated prefix and, at the final chunk, emits
the mode of the whole accumulator. -/
lemma predictAux_wfBody {α : Type} (decode : Int → α) :
    ∀ (b : List Chunk), wfBody b = true →
    ∀ (l : List Int) (rest : List Chunk),
      predictAux decode (.pylist l) (b ++ rest) =
        match predictAux decode (.ndarray (l ++ b.map Chunk.label)) rest with
        | .error e => .error e
        | .ok out => .ok ([decode (mode (l ++ b.map Chunk.label))] :: out)
  | [], hb => by simp [wfBody] at hb
  | [c], hb => by
    intro l rest
    simp only [wfBody, Bool.and_eq_true, Bool.not_eq_true'] at hb
    obtain ⟨hs, he⟩ := hb
    simp [predictAux, hs, he]
  | c :: c2 :: b2, hb => by
    intro l rest
    simp only [wfBody, Bool.and_eq_true, Bool.not_eq_true'] at hb
    obtain ⟨⟨hs, he⟩, hb2⟩ := hb
    have ih := predictAux_wfBody decode (c2 :: b2) hb2 (l ++ [c.label]) rest
    simp only [List.cons_append] at ih
    rw [List.cons_append, predictAux_cons]
    simp only [hs, he, Bool.false_eq_true, if_false, List.cons_append]
    rw [ih]
    simp [List.append_assoc]

/-- Processing a well-formed document resets the accumulator (whatever
its prior state), accumulates exactly that document's labels, and emits
the mode of those labels followed by the output for the rest of the
stream. -/
lemma predictAux_wfDoc {α : Type} (decode : Int → α) (d : List Chunk)
    (hd : wfDoc d = true) (acc : DocLabels) (rest : List Chunk) :
    predictAux decode acc (d ++ rest) =
      match predictAux decode (.ndarray (d.map Chunk.label)) rest with
      | .error e => .error e
      | .ok out => .ok ([decode (mode (d.map Chunk.label))] :: out) := by
  match d with
  | [] => simp [wfDoc] at hd
  | [c] =>
    simp only [wfDoc, Bool.and_eq_true] at hd
    obtain ⟨hs, he⟩ := hd
    simp [predictAux, hs, he]
  | c :: c2 :: b2 =>
    simp only [wfDoc, Bool.and_eq_true, Bool.not_eq_true'] at hd
    obtain ⟨⟨hs, he⟩, hb⟩ := hd
    have ih := predictAux_wfBody decode (c2 :: b2) hb [c.label] rest
    simp only [List.cons_append, List.nil_append] at ih
    rw [List.cons_append, predictAux_cons]
    simp only [hs, he, Bool.false_eq_true, if_true, if_false, List.nil_append, List.cons_append]
    rw [ih]
    simp

/-- Folding the loop body over a concatenation of well-formed documents
succeeds from any accumulator state and emits, per document in order, the
decoded mode of that document's labels. -/
lemma predictAux_flatten {α : Type} (decode : Int → α) :
    ∀ (docs : List (List Chunk)), (∀ d ∈ docs, wfDoc d = true) →
    ∀ (acc : DocLabels),
      predictAux decode acc docs.flatten =
        .ok (docs.map fun d => [decode (mode (d.map Chunk.label))])
  | [], _, acc => by simp [predictAux]
  | d :: docs, h, acc => by
    have hd : wfDoc d = true := h d (List.mem_cons_self d docs)
    have hrest : ∀ d2 ∈ docs, wfDoc d2 = true := fun d2 hm =>
      h d2 (List.mem_cons_of_mem d hm)
    rw [List.flatten_cons, predictAux_wfDoc decode d hd acc docs.flatten,
      predictAux_flatten decode docs hrest (.ndarray (d.map Chunk.label))]
    simp

/-- A well-formed document body contains exactly one `end_of_doc` chunk. -/
lemma countP_end_wfBody :
    ∀ (b : List Chunk), wfBody b = true →
      b.countP (fun c => c.end_of_doc) = 1
  | [], hb => by simp [wfBody] at hb
  | [c], hb => by
    simp only [wfBody, Bool.and_eq_true, Bool.not_eq_true'] at hb
    simp [List.countP_cons, hb.2]
  | c :: c2 :: b2, hb => by
    simp only [wfBody, Bool.and_eq_true, Bool.not_eq_true'] at hb
    obtain ⟨⟨hs, he⟩, hb2⟩ := hb
    rw [List.countP_cons]
    simp [he, countP_end_wfBody (c2 :: b2) hb2]

/-- A well-formed document contains exactly one `end_of_doc` chunk. -/
lemma countP_end_wfDoc (d : List Chunk) (hd : wfDoc d = true) :
    d.countP (fun c => c.end_of_doc) = 1 := by
  match d with
  | [] => simp [wfDoc] at hd
  | [c] =>
    simp only [wfDoc, Bool.and_eq_true] at hd
    simp [List.countP_cons, hd.2]
  | c :: c2 :: b2 =>
    simp only [wfDoc, Bool.and_eq_true, Bool.not_eq_true'] at hd
    obtain ⟨⟨hs, he⟩, hb⟩ := hd
    rw [List.countP_cons]
    simp [he, countP_end_wfBody (c2 :: b2) hb]

/-- The concatenation of well-formed documents has as many `end_of_doc`
chunks as there are documents. -/
lemma countP_end_flatten :
    ∀ (docs : List (List Chunk)), (∀ d ∈ docs, wfDoc d = true) →
      docs.flatten.countP (fun c => c.end_of_doc) = docs.length
  | [], _ => by simp
  | d :: docs, h => by
    rw [List.flatten_cons, List.countP_append,
      countP_end_wfDoc d (h d (List.mem_cons_self d docs)),
      countP_end_flatten docs (fun d2 hm => h d2 (List.mem_cons_of_mem d hm))]
    simp [Nat.add_comm]

/-- Every emitted element of a successful fold is a one-element list
(the `.tolist()` of the one-element decoded array). -/
lemma predictAux_lengths {α : Type} (decode : Int → α) :
    ∀ (s : List Chunk) (acc : DocLabels) (res : List (List α)),
      predictAux decode acc s = .ok res →
      res.map List.length = List.replicate res.length 1
  | [], _, res => by
    intro h
    simp only [predictAux] at h
    cases h
    simp
  | c :: rest, acc, res => by
    intro h
    rw [predictAux_cons] at h
    rcases hstart : (if c.start_of_doc then DocLabels.pylist [] else acc) with _ | l | l
    · rw [hstart] at h
      cases h
    · rw [hstart] at h
      dsimp only at h
      by_cases he : c.end_of_doc = true
      · rw [if_pos he] at h
        cases hrec : predictAux decode (.ndarray (l ++ [c.label])) rest with
        | error e => rw [hrec] at h; cases h
        | ok out =>
          rw [hrec] at h
          cases h
          have ihout := predictAux_lengths decode rest (.ndarray (l ++ [c.label])) out hrec
          simp [ihout, List.replicate_succ]
      · rw [if_neg he] at h
        exact predictAux_lengths decode rest (.pylist (l ++ [c.label])) res h
    · rw [hstart] at h
      cases h

/-- C2: for every chunk stream satisfying the start/end boundary
invariant — modelled as a concatenation of well-formed documents —
`OrdinalRegressor.predict` succeeds and the number of emitted document
labels equals the number of stream tuples whose `end_of_doc` flag is
true. -/
theorem predict_length_eq_end_of_doc_count {α : Type} (decode : Int → α)
    (docs : List (List Chunk)) (h : ∀ d ∈ docs, wfDoc d = true) :
    Except.map List.length (predict decode docs.flatten) =
      .ok (docs.flatten.countP (fun c => c.end_of_doc)) := by
  rw [predict, predictAux_flatten decode docs h .undefined, countP_end_flatten docs h]
  simp [Except.map]

/-- Witness for `predict_length_eq_end_of_doc_count` at a concrete
two-document stream (one single-chunk document, one two-chunk
document). -/
theorem predict_length_eq_end_of_doc_count_witness :
    Except.map List.length
        (predict (fun z : Int => z)
          (([[⟨true, true, 1⟩], [⟨true, false, 2⟩, ⟨false, true, 3⟩]] :
            List (List Chunk)).flatten)) =
      .ok ((([[⟨true, true, 1⟩], [⟨true, false, 2⟩, ⟨false, true, 3⟩]] :
            List (List Chunk)).flatten).countP
        (fun c => c.end_of_doc)) :=
  predict_length_eq_end_of_doc_count (fun z : Int => z)
    [[⟨true, true, 1⟩], [⟨true, false, 2⟩, ⟨false, true, 3⟩]] (by decide)

/-- C7: for every well-formed chunk stream, `OrdinalRegressor.predict`
emits, for each document in order, the one-element list holding the
label-space inverse decode of the statistical mode of that document's
per-chunk labels. For a single-chunk document the accumulator is the
one-element list of that chunk's raw label, and by `mode_singleton` the
emitted label is the decode of that raw label. -/
theorem predict_majority_vote {α : Type} (decode : Int → α)
    (docs : List (List Chunk)) (h : ∀ d ∈ docs, wfDoc d = true) :
    predict decode docs.flatten =
      .ok (docs.map fun d => [decode (mode (d.map Chunk.label))]) :=
  predictAux_flatten decode docs h .undefined

/-- Witness for `predict_majority_vote` at a concrete stream holding one
single-chunk document (`start_of_doc` and `end_of_doc` both true). -/
theorem predict_majority_vote_witness :
    predict (fun z : Int => z)
        (([[⟨true, true, 3⟩]] : List (List Chunk)).flatten) =
      .ok (([[⟨true, true, 3⟩]] : List (List Chunk)).map
        (fun d => [(fun z : Int => z) (mode (d.map Chunk.label))])) :=
  predict_majority_vote (fun z : Int => z) [[⟨true, true, 3⟩]] (by decide)

/-- C3 counterexample: a stream with two consecutive `start_of_doc`
chunks and no intervening `end_of_doc` violates the start/end boundary
invariant, yet `OrdinalRegressor.predict` raises no error: it silently
resets the accumulator, discards the first document's chunks, and
returns a single label even though two documents were started. -/
theorem predict_accepts_consecutive_start_of_doc :
    List.countP (fun c => c.start_of_doc)
        ([⟨true, false, 1⟩, ⟨true, true, 2⟩] : List Chunk) = 2 ∧
    List.countP (fun c => c.end_of_doc)
        ([⟨true, false, 1⟩, ⟨true, true, 2⟩] : List Chunk) = 1 ∧
    predict (fun z : Int => z) [⟨true, false, 1⟩, ⟨true, true, 2⟩] = .ok [[2]] := by
  decide

/-- C3 amended: the violations the code does detect fail through
incidental Python errors raised by the `doc_labels.append(label)` line,
not a dedicated structural-invariant error, and in each case no label is
emitted: a chunk with `start_of_doc` false arriving right after a
finalized well-formed document hits the ndarray that `end_of_doc`
rebound the accumulator to and raises `AttributeError`, and a chunk
arriving before any `start_of_doc` finds the accumulator undefined and
raises `NameError`. The consecutive-`start_of_doc` violation, by
contrast, is silently accepted (see the counterexample). -/
theorem predict_append_errors {α : Type} (decode : Int → α)
    (d : List Chunk) (c : Chunk) (s : List Chunk)
    (hd : wfDoc d = true) (hc : c.start_of_doc = false) :
    predict decode (d ++ c :: s) =
      .error (.attributeError "numpy.ndarray object has no attribute append") ∧
    predict decode (c :: s) =
      .error (.nameError "name doc_labels is not defined") := by
  constructor
  · rw [predict, predictAux_wfDoc decode d hd DocLabels.undefined (c :: s),
      predictAux_cons, hc]
    simp
  · rw [predict, predictAux_cons, hc]
    simp

/-- Witness for `predict_append_errors`: a one-chunk document followed
by a chunk with `start_of_doc` false raises `AttributeError`; the same
trailing chunk alone raises `NameError`. -/
theorem predict_append_errors_witness :
    wfDoc [⟨true, true, 1⟩] = true ∧
    Chunk.start_of_doc ⟨false, true, 7⟩ = false ∧
    (predict (fun z : Int => z) ([⟨true, true, 1⟩] ++ ⟨false, true, 7⟩ :: []) =
        .error (.attributeError "numpy.ndarray object has no attribute append") ∧
      predict (fun z : Int => z) (⟨false, true, 7⟩ :: []) =
        .error (.nameError "name doc_labels is not defined")) :=
  ⟨by decide, by decide,
    predict_append_errors (fun z : Int => z) [⟨true, true, 1⟩] ⟨false, true, 7⟩ []
      (by decide) (by decide)⟩

/-- C10: every element of the list returned by a successful
`OrdinalRegressor.predict` is itself a one-element list — the
`.tolist()` of the inverse transform of the one-element array
`[doc_mode]` — not a bare scalar label. -/
theorem predict_elements_singleton {α : Type} (decode : Int → α)
    (s : List Chunk) (res : List (List α)) (h : predict decode s = .ok res) :
    res.map List.length = List.replicate res.length 1 :=
  predictAux_lengths decode s .undefined res h

/-- Witness for `predict_elements_singleton` at a concrete two-document
stream: both emitted elements are one-element lists. -/
theorem predict_elements_singleton_witness :
    List.map List.length ([[5], [1]] : List (List Int)) =
      List.replicate ([[5], [1]] : List (List Int)).length 1 :=
  predict_elements_singleton (fun z : Int => z)
    [⟨true, true, 5⟩, ⟨true, false, 1⟩, ⟨false, true, 1⟩] [[5], [1]] (by decide)

end OrdinalRegressor

namespace ComparisonOrdinalRegressor

/-- Elementwise absolute sum of two vectors is symmetric in the vectors. -/
lemma pairSumAbs_comm (a b : List Int) : pairSumAbs a b = pairSumAbs b a :=
  List.zipWith_comm_of_comm _ (fun x y => by rw [Int.add_comm]) a b

/-- C4: the comparison transform applied by
`ComparisonOrdinalRegressor._target_model` — pair-axis sum followed by
elementwise absolute value, on pooled features, per-token sequence
features and optional context features — is invariant under swapping the
two documents of every pair; consequently any downstream computation
(in particular the ordinal head's logits) is identical on swapped
pairs. -/
theorem comparison_transform_symmetric (s : FeaturizerState) :
    target_model_transform (swapDocs s) = target_model_transform s ∧
    ∀ (logits_of : TransformedFeaturizerState → List Int),
      logits_of (target_model_transform (swapDocs s)) =
        logits_of (target_model_transform s) := by
  have hmain : target_model_transform (swapDocs s) = target_model_transform s := by
    obtain ⟨⟨fa, fb⟩, ⟨sa, sb⟩, ctx⟩ := s
    simp only [swapDocs, target_model_transform, TransformedFeaturizerState.mk.injEq]
    refine ⟨pairSumAbs_comm fb fa, List.zipWith_comm_of_comm _ pairSumAbs_comm sb sa, ?_⟩
    cases ctx with
    | none => rfl
    | some p => simp [pairSumAbs_comm p.2 p.1]
  exact ⟨hmain, fun logits_of => congrArg logits_of hmain⟩

end ComparisonOrdinalRegressor

namespace finetune_featurizer

/-- C5 evidence: the low-memory branch of the featurizer compares
`layer.__call__` against the `recompute_grad` wrapper with `==` instead
of assigning it with `=`, so even with `config.low_memory_mode` enabled
and `train` true every encoder layer is left exactly as it was: no
layer's call is replaced by the gradient-recomputation wrapper. -/
theorem low_memory_mode_leaves_layers_unchanged
    (recompute_grad : Nat → List Nat → Nat) (layers : List EncoderLayer) :
    configure_encoder_layers true true recompute_grad layers = layers := by
  have hfun : low_memory_layer_pass recompute_grad = id := funext fun _ => rfl
  simp [configure_encoder_layers, hfun]

end finetune_featurizer

namespace finetune_featurizer

/-- `lastPosFrom` is zero or at least the starting offset. -/
lemma lastPosFrom_ge (delim : Int) :
    ∀ (X : List Int) (i : Nat),
      lastPosFrom delim i X = 0 ∨ i ≤ lastPosFrom delim i X
  | [], _ => Or.inl rfl
  | t :: rest, i => by
    rcases lastPosFrom_ge delim rest (i + 1) with h0 | hle
    · by_cases hc : t = delim ∧ i ≠ 0
      · right
        simp only [lastPosFrom]
        rw [if_pos h0, if_pos hc]
      · left
        simp only [lastPosFrom]
        rw [if_pos h0, if_neg hc]
    · right
      have hne : lastPosFrom delim (i + 1) rest ≠ 0 := by omega
      simp only [lastPosFrom]
      rw [if_neg hne]
      omega

/-- Invariant of the arg-max fold over a masked indicator-times-ramp
vector whose head sits at absolute position `i`: a non-zero entry equals
its own absolute position and those positions strictly increase, so the
fold's final state is the last delimiter position beyond the incoming
best value, when one exists, and the incoming state otherwise. -/
lemma amax_masked (delim : Int) :
    ∀ (X : List Int) (i bi bv : Nat),
      amax (maskedFrom delim i X) bi bv i =
        if bv < lastPosFrom delim i X
        then (lastPosFrom delim i X, lastPosFrom delim i X)
        else (bi, bv)
  | [], i, bi, bv => by
    simp [maskedFrom, amax, lastPosFrom]
  | t :: rest, i, bi, bv => by
    have hge := lastPosFrom_ge delim rest (i + 1)
    simp only [maskedFrom, amax, lastPosFrom]
    by_cases ht : t = delim
    · simp only [ht, eq_self_iff_true, true_and, if_true]
      by_cases hi : i = 0
      · subst hi
        rw [if_neg (by omega : ¬ bv < 0), amax_masked delim rest (0 + 1) bi bv]
        by_cases hr : lastPosFrom delim (0 + 1) rest = 0
        · rw [hr]
          simp
        · rw [if_neg hr]
      · by_cases hbv : bv < i
        · rw [if_pos hbv, amax_masked delim rest (i + 1) i i]
          by_cases hr : lastPosFrom delim (i + 1) rest = 0
          · rw [hr]
            simp [hi, hbv]
          · have hir : i < lastPosFrom delim (i + 1) rest := by
              rcases hge with h0 | hle
              · exact absurd h0 hr
              · omega
            rw [if_pos hir, if_neg hr, if_pos (by omega : bv < lastPosFrom delim (i + 1) rest)]
        · rw [if_neg hbv, amax_masked delim rest (i + 1) bi bv]
          by_cases hr : lastPosFrom delim (i + 1) rest = 0
          · rw [hr]
            simp [hi, hbv]
          · rw [if_neg hr]
    · simp only [ht, false_and, if_false]
      rw [if_neg (by omega : ¬ bv < 0), amax_masked delim rest (i + 1) bi bv]
      by_cases hr : lastPosFrom delim (i + 1) rest = 0
      · rw [hr]
        simp
      · rw [if_neg hr]

/-- When the sequence has no delimiter, `lastPosFrom` is zero. -/
lemma lastPosFrom_of_none (delim : Int) :
    ∀ (X : List Int), lastOccIdx delim X = none →
    ∀ (i : Nat), lastPosFrom delim i X = 0
  | [], _, _ => rfl
  | t :: rest, h, i => by
    simp only [lastOccIdx] at h
    cases hrest : lastOccIdx delim rest with
    | some j => rw [hrest] at h; cases h
    | none =>
      rw [hrest] at h
      by_cases ht : t = delim
      · rw [if_pos ht] at h; cases h
      · have hr := lastPosFrom_of_none delim rest hrest (i + 1)
        simp only [lastPosFrom]
        rw [if_pos hr, if_neg (by simp [ht])]

/-- When the last delimiter occurrence is at relative index `q`,
`lastPosFrom` from offset `i` is the absolute position `i + q`. -/
lemma lastPosFrom_of_some (delim : Int) :
    ∀ (X : List Int) (q : Nat), lastOccIdx delim X = some q →
    ∀ (i : Nat), lastPosFrom delim i X = i + q
  | [], q, h, _ => by cases h
  | t :: rest, q, h, i => by
    simp only [lastOccIdx] at h
    cases hrest : lastOccIdx delim rest with
    | some j =>
      rw [hrest] at h
      cases h
      have hr := lastPosFrom_of_some delim rest j hrest (i + 1)
      simp only [lastPosFrom]
      rw [if_neg (by omega), hr]
      omega
    | none =>
      rw [hrest] at h
      by_cases ht : t = delim
      · rw [if_pos ht] at h
        cases h
        have hr := lastPosFrom_of_none delim rest hrest (i + 1)
        simp only [lastPosFrom]
        rw [if_pos hr]
        by_cases hi : i = 0
        · rw [if_neg (by simp [hi])]
          omega
        · rw [if_pos ⟨ht, hi⟩]
          omega
      · rw [if_neg ht] at h
        cases h

/-- The eos-index fold computes `lastPosFrom` from offset zero. -/
lemma eos_idx_eq_lastPosFrom (X : List Int) (delim : Int) :
    eos_idx X delim = lastPosFrom delim 0 X := by
  rw [eos_idx, amax_masked delim X 0 0 0]
  by_cases h0 : 0 < lastPosFrom delim 0 X
  · rw [if_pos h0]
  · rw [if_neg h0]
    omega

/-- C1 counterexample: in the sequence `[5, 7, 5]` with delimiter `5`
the first delimiter sits at position 0, but the masked-ramp arg-max
yields position 2 (the last delimiter): the larger position value of a
later delimiter dominates the arg-max, so `eos_idx` is not the first
delimiter position. -/
theorem eos_idx_not_first_delimiter :
    ((5 : Int) ∈ ([5, 7, 5] : List Int)) ∧
    List.findIdx (fun t => t == (5 : Int)) [5, 7, 5] = 0 ∧
    finetune_featurizer.eos_idx [5, 7, 5] 5 = 2 ∧
    finetune_featurizer.eos_idx [5, 7, 5] 5 ≠
      List.findIdx (fun t => t == (5 : Int)) [5, 7, 5] := by
  decide

/-- C1 amended: for every sequence containing at least one delimiter
token, the `eos_idx` entry equals the position of the last delimiter
token in that sequence (ties between the zero-masked positions and a
delimiter legitimately at position 0 resolve to 0, which is still the
last — and only — delimiter position in that case). -/
theorem eos_idx_eq_last_delimiter (X : List Int) (delim : Int) (q : Nat)
    (h : finetune_featurizer.lastOccIdx delim X = some q) :
    finetune_featurizer.eos_idx X delim = q := by
  rw [eos_idx_eq_lastPosFrom, lastPosFrom_of_some delim X q h 0]
  omega

/-- Witness for `eos_idx_eq_last_delimiter`: `[7, 5, 9, 5, 7]` with
delimiter `5` has its last delimiter at position 3. -/
theorem eos_idx_eq_last_delimiter_witness :
    finetune_featurizer.lastOccIdx 5 [7, 5, 9, 5, 7] = some 3 ∧
    finetune_featurizer.eos_idx [7, 5, 9, 5, 7] 5 = 3 :=
  ⟨by decide, eos_idx_eq_last_delimiter [7, 5, 9, 5, 7] 5 3 (by decide)⟩

end finetune_featurizer

/-- Inner importer loop: under dataset consistency it succeeds and its
keys are the listed weight names rewritten by the rules in order. -/
lemma loadLayerWeights_names (rules : List (String × String)) (g : H5Layer) :
    ∀ (ws : List String),
      ws.all (fun wn => (lookupD g.datasets wn).isSome) = true →
      ∃ out, loadLayerWeights rules g ws = .ok out ∧
        out.map Prod.fst = ws.map (applyRules rules)
  | [], _ => ⟨[], rfl, rfl⟩
  | wn :: rest, h => by
    simp only [List.all_cons, Bool.and_eq_true] at h
    obtain ⟨h1, h2⟩ := h
    cases hl : lookupD g.datasets wn with
    | none => rw [hl] at h1; cases h1
    | some v =>
      obtain ⟨out, hout, hmap⟩ := loadLayerWeights_names rules g rest h2
      refine ⟨(applyRules rules wn, v) :: out, ?_, ?_⟩
      · simp only [loadLayerWeights, hl, hout]
      · simp [hmap]

/-- Outer importer loop: under archive consistency it succeeds and its
keys are the archive's weight names (in iteration order) rewritten by
the rules in order. -/
lemma loadLayers_names (f : H5Group) (rules : List (String × String)) :
    ∀ (lns : List String), wfLayerNames f lns = true →
      ∃ out, loadLayers f rules lns = .ok out ∧
        out.map Prod.fst =
          ((lns.map (fun ln =>
            match lookupD f.layers ln with
            | none => []
            | some layer => layer.weight_names)).flatten).map (applyRules rules)
  | [], _ => ⟨[], rfl, by simp⟩
  | ln :: rest, h => by
    simp only [wfLayerNames, List.all_cons, Bool.and_eq_true] at h
    obtain ⟨h1, h2⟩ := h
    cases hl : lookupD f.layers ln with
    | none => rw [hl] at h1; cases h1
    | some layer =>
      rw [hl] at h1
      obtain ⟨ws, hws, hwmap⟩ := loadLayerWeights_names rules layer layer.weight_names h1
      obtain ⟨out, hout, hmap⟩ := loadLayers_names f rules rest h2
      refine ⟨ws ++ out, ?_, ?_⟩
      · simp only [loadLayers, hl, hws, hout]
      · simp [hl, List.map_append, hwmap, hmap]

/-- C8: under archive consistency, the importer produces a binding list
whose keys are exactly the source weight names of the effective group —
the root for the flat layout, the `model_weights` subgroup for the
nested layout, as selected by `effectiveGroup` — each rewritten by
applying the rules in list order, every rule a full (all occurrences,
non-regex) substring replacement. -/
theorem load_weights_rewrites_names (f : H5File) (rules : List (String × String))
    (h : wfGroup (effectiveGroup f) = true) :
    Except.map (List.map Prod.fst) (load_weights_from_hdf5_group_by_name f rules) =
      .ok ((sourceWeightNames (effectiveGroup f)).map (applyRules rules)) := by
  obtain ⟨out, hout, hmap⟩ :=
    loadLayers_names (effectiveGroup f) rules (effectiveGroup f).layer_names h
  rw [load_weights_from_hdf5_group_by_name, hout]
  simp [Except.map, hmap, sourceWeightNames]

/-- Witness for `load_weights_rewrites_names`: a nested-layout archive
(no root `layer_names` attribute, weights under `model_weights`) with
one layer and one weight, and two rewrite rules applied in order. -/
theorem load_weights_rewrites_names_witness :
    Except.map (List.map Prod.fst)
        (load_weights_from_hdf5_group_by_name
          ⟨false,
            some ⟨["dense"],
              [("dense", ⟨["model/dense/kernel:0"], [("model/dense/kernel:0", 7)]⟩)]⟩,
            ⟨[], []⟩⟩
          [("model/", "featurizer/"), (":0", "")]) =
      .ok ((sourceWeightNames
          (effectiveGroup
            ⟨false,
              some ⟨["dense"],
                [("dense", ⟨["model/dense/kernel:0"], [("model/dense/kernel:0", 7)]⟩)]⟩,
              ⟨[], []⟩⟩)).map
        (applyRules [("model/", "featurizer/"), (":0", "")])) :=
  load_weights_rewrites_names
    ⟨false,
      some ⟨["dense"],
        [("dense", ⟨["model/dense/kernel:0"], [("model/dense/kernel:0", 7)]⟩)]⟩,
      ⟨[], []⟩⟩
    [("model/", "featurizer/"), (":0", "")] (by decide)

/-- C6: `predict_proba` on the ordinal head and on its comparison
subclass (which inherits the method) raises the descriptive
`AttributeError` for every input and never returns a value. -/
theorem predict_proba_always_raises {α β : Type} (X : α) :
    @OrdinalRegressor.predict_proba α β X =
      .error (.attributeError "`Regressor` model does not support `predict_proba`.") ∧
    @ComparisonOrdinalRegressor.predict_proba α β X =
      .error (.attributeError "`Regressor` model does not support `predict_proba`.") ∧
    ∀ y : β, @OrdinalRegressor.predict_proba α β X ≠ Except.ok y :=
  ⟨rfl, rfl, fun _ h => Except.noConfusion h⟩

/-- C9: reading the `vocab_size` property of the encoder shim always
returns `None`: the body evaluates `self.tokenizer.vocab_size` but never
returns it. -/
theorem vocab_size_returns_none (e : HuggingFaceEncoder) :
    e.vocab_size = none := rfl
